import Mathlib

/-!
Verification development for the document-ingestion / retrieval core of the
Dietplanner web application.

The Python source is shallowly embedded:
* text is `List Char`;
* `chunk_text` (backend/ChatBot/knowledge_base.py) is modelled with a
  hand-rolled model of Python `str.split()` (whitespace words), `str.strip()`
  and of the sentence splitter `re.split(r'(?<=[.!?]) +', text)`;
* the FAISS flat L2 index is modelled as a list of integer vectors and its
  `search` as a stable sort of (distance, id) pairs (Python's `list.sort`
  and the index ordering are stable / deterministic in the model);
* the retriever (backend/ChatBot/retriever.py) and the ingestion background
  task (backend/api/chatbot.py, `ingest_files_background`) are modelled as
  pure functions, with `Option` capturing a raised exception.
-/

namespace DietKB

/-- ASCII whitespace as recognised by Python's `str.split()` / `str.strip()`
(the model restricts itself to the ASCII whitespace characters). -/
def isWS (c : Char) : Bool :=
  c = ' ' || c = '\t' || c = '\n' || c = '\r' || c = '\x0b' || c = '\x0c'

/-- Emit the (reversed) word accumulator, if non-empty. -/
def flushW (cur : List Char) : List (List Char) :=
  if cur.isEmpty then [] else [cur.reverse]

/-- Scanner for Python `str.split()`: `cur` is the reversed current word. -/
def wordsAux (cur : List Char) : List Char → List (List Char)
  | [] => flushW cur
  | c :: cs => if isWS c then flushW cur ++ wordsAux [] cs else wordsAux (c :: cur) cs

/-- Python `text.split()`: the whitespace-delimited words of `l`. -/
def words (l : List Char) : List (List Char) := wordsAux [] l

/-- Python `len(text.split())`: the whitespace-delimited word count. -/
def wc (l : List Char) : Nat := (words l).length

/-- Python `str.lstrip()` over ASCII whitespace. -/
def lstrip (l : List Char) : List Char := l.dropWhile isWS

/-- Python `str.rstrip()` over ASCII whitespace. -/
def rstrip (l : List Char) : List Char := (l.reverse.dropWhile isWS).reverse

/-- Python `str.strip()` over ASCII whitespace. -/
def pyStrip (l : List Char) : List Char := lstrip (rstrip l)

/-! ### Sentence splitting: `re.split(r'(?<=[.!?]) +', text)` -/

/-- The terminal punctuation class `[.!?]` of the chunker's regex. -/
def isTerm (c : Char) : Bool := c = '.' || c = '!' || c = '?'

/-- Scanner for `re.split(r'(?<=[.!?]) +', text)` in `chunk_text`
(backend/ChatBot/knowledge_base.py line 22).  `cur` is the piece being
accumulated; `after` records whether the character immediately before the
scan position is in `[.!?]` (the regex lookbehind; `false` at the start of
the text and right after a delimiter, whose characters are all spaces);
`skip` is set while the scanner is consuming the greedy run of spaces
`' +'` that forms one delimiter.  While skipping, `cur = []` and further
spaces are consumed; the first non-space character starts the next piece. -/
def ssAux (cur : List Char) (after skip : Bool) : List Char → List (List Char)
  | [] => [cur]
  | c :: rest =>
    if skip then
      if c == ' ' then ssAux cur after true rest
      else ssAux [c] (isTerm c) false rest
    else if c == ' ' && after then
      cur :: ssAux [] false true rest
    else
      ssAux (cur ++ [c]) (isTerm c) false rest

/-- `re.split(r'(?<=[.!?]) +', text)`: the sentences of `text`. -/
def splitSentences (text : List Char) : List (List Char) := ssAux [] false false text

/-! ### The chunker: `chunk_text` (backend/ChatBot/knowledge_base.py 20-33) -/

/-- The accumulation loop of `chunk_text`: for each sentence, if
`len((chunk + sentence).split()) > max_tokens` the current chunk is emitted
(stripped) and the accumulator restarts at the sentence, otherwise
`chunk += " " + sentence`; after the loop a truthy (non-empty) accumulator
is emitted stripped. -/
def chunkLoop (maxT : Nat) (chunk : List Char) : List (List Char) → List (List Char)
  | [] => if chunk.isEmpty then [] else [pyStrip chunk]
  | s :: rest =>
    if maxT < wc (chunk ++ s) then
      pyStrip chunk :: chunkLoop maxT s rest
    else
      chunkLoop maxT (chunk ++ ' ' :: s) rest

/-- `chunk_text(text, max_tokens)`: split into sentences, then greedily
accumulate sentences into chunks. -/
def chunk_text (text : List Char) (maxT : Nat) : List (List Char) :=
  chunkLoop maxT [] (splitSentences text)

/-- `" ".join(chunks)`: the chunks joined by single spaces. -/
def joinChunksSp (chunks : List (List Char)) : List Char :=
  List.intercalate [' '] chunks

/-! ### FAISS index model and the persisted per-source layout -/

/-- A FAISS `IndexFlatL2` is modelled as the list of its stored vectors
(integer-valued coordinates; the claims under verification do not depend on
float rounding). -/
structure FaissIndex where
  vecs : List (List Int)
deriving DecidableEq, Repr

/-- Squared Euclidean (L2) distance, the metric of `IndexFlatL2`. -/
def sqDist (q v : List Int) : Int :=
  ((q.zip v).map (fun p => (p.1 - p.2) * (p.1 - p.2))).sum

/-- Stable insertion: place `a` after every element `b` with `le b a`. -/
def insertLE {α : Type} (le : α → α → Bool) (a : α) : List α → List α
  | [] => [a]
  | b :: l => if le b a then b :: insertLE le a l else a :: b :: l

/-- Stable sort by `le` (inserting in original order keeps ties in their
original relative order).  Models Python's `list.sort`, which is stable,
and the deterministic ascending-distance ordering of the flat index. -/
def stableSort {α : Type} (le : α → α → Bool) (l : List α) : List α :=
  l.foldl (fun acc a => insertLE le a acc) []

/-- The `(distance, internal id)` pairs of all vectors of an index against
query `q`, ids starting at `i`. -/
def distPairs (q : List Int) : Nat → List (List Int) → List (Int × Nat)
  | _, [] => []
  | i, v :: vs => (sqDist q v, i) :: distPairs q (i + 1) vs

/-- `index.search(query, k)`: the `(distance, id)` pairs ordered by
ascending distance, truncated to `k`.  (`retrieve` only ever calls this
with `k` at most the source's passage count.) -/
def faissSearch (idx : FaissIndex) (q : List Int) (k : Nat) : List (Int × Nat) :=
  (stableSort (fun a b => decide (a.1 ≤ b.1)) (distPairs q 0 idx.vecs)).take k

/-! ### The retriever (backend/ChatBot/retriever.py) -/

/-- One retrieval hit: the dict
`{'chunk': …, 'score': …, 'source': …, 'rank': …}`. -/
structure RResult where
  chunk : List Char
  score : Int
  source : List Char
  rank : Nat
deriving DecidableEq, Repr

/-- One loaded source: the parallel entries of `self.indices`,
`self.chunks` and `self.sources` built by `KnowledgeBaseRetriever.__init__`. -/
structure Source where
  index : FaissIndex
  chunks : List (List Char)
  sname : List Char
deriving DecidableEq, Repr

/-- The inner loop of `retrieve` over one source's search output:
`for rank, (i, d) in enumerate(zip(I[0], D[0]))` appends a result with the
passage `chunks[i]` and `'rank': rank + 1`; an out-of-range `chunks[i]`
raises (`none`). -/
def mkResultsAux (chunks : List (List Char)) (src : List Char) :
    Nat → List (Int × Nat) → Option (List RResult)
  | _, [] => some []
  | rank, (d, i) :: rest =>
    match chunks.get? i, mkResultsAux chunks src (rank + 1) rest with
    | some c, some out => some (⟨c, d, src, rank + 1⟩ :: out)
    | _, _ => none

def mkResults (chunks : List (List Char)) (src : List Char)
    (pairs : List (Int × Nat)) : Option (List RResult) :=
  mkResultsAux chunks src 0 pairs

/-- Left-to-right sequencing of fallible per-element computations; `none`
as soon as one element raises (the raised exception aborts the whole
call). -/
def optMap {α β : Type} (f : α → Option β) : List α → Option (List β)
  | [] => some []
  | a :: l =>
    match f a, optMap f l with
    | some b, some bs => some (b :: bs)
    | _, _ => none

/-- `KnowledgeBaseRetriever.retrieve(query, top_k)`: embed the query once;
for each source search its index with `min(top_k, len(chunks))` and build
that source's result sublist; collect all sublists in order; sort the
concatenation by ascending score (Python `list.sort`, stable); return the
first `top_k`. -/
def retrieve (emb : List Char → List Int) (srcs : List Source)
    (query : List Char) (top_k : Nat) : Option (List RResult) :=
  match optMap (fun s =>
      mkResults s.chunks s.sname
        (faissSearch s.index (emb query) (min top_k s.chunks.length))) srcs with
  | none => none
  | some ls =>
      some ((stableSort (fun a b => decide (a.score ≤ b.score)) ls.flatten).take top_k)

/-- Modelled from the spec's wording of the `retrieve` contract (§4.4), for
comparison against the implementation: query each loaded source's index
with `min(topK, passageCount)`; resolve each returned id to the passage at
that ordinal, with `rank` the 1-based position within that source's own
result sublist; concatenate all sources' sublists; stably re-sort the
concatenation by ascending distance; truncate to `topK`.  (The spec's
description presumes resolvable ids, so this description is total.) -/
def specMkResults (chunks : List (List Char)) (src : List Char) :
    Nat → List (Int × Nat) → List RResult
  | _, [] => []
  | rank, (d, i) :: rest =>
    ⟨chunks.getD i [], d, src, rank + 1⟩ :: specMkResults chunks src (rank + 1) rest

def retrieveSpec (emb : List Char → List Int) (srcs : List Source)
    (query : List Char) (top_k : Nat) : List RResult :=
  (stableSort (fun a b => decide (a.score ≤ b.score))
    ((srcs.map (fun s => specMkResults s.chunks s.sname 0
      (faissSearch s.index (emb query) (min top_k s.chunks.length)))).flatten)).take top_k

/-! ### Persisted layout and `KnowledgeBaseRetriever.__init__` -/

/-- The multi-character chunk separator `'\n---\n'`. -/
def SEP : List Char := String.toList "\n---\n"

/-- Does the first list lead (start) the second? -/
def leadsWith : List Char → List Char → Bool
  | [], _ => true
  | _ :: _, [] => false
  | a :: as, b :: bs => a == b && leadsWith as bs

/-- Python `content.split('\n---\n')`: split at leftmost non-overlapping
occurrences of the separator; `skip` counts separator characters still to
be consumed after a match. -/
def sepAux (cur : List Char) : Nat → List Char → List (List Char)
  | _, [] => [cur]
  | n + 1, _ :: rest => sepAux cur n rest
  | 0, c :: rest =>
    if leadsWith SEP (c :: rest) then cur :: sepAux [] 4 rest
    else sepAux (cur ++ [c]) 0 rest

def sepSplit (t : List Char) : List (List Char) := sepAux [] 0 t

/-- The chunk-file parse in `KnowledgeBaseRetriever.__init__`:
`[c.strip() for c in f.read().split('\n---\n') if c.strip()]`. -/
def parseChunks (t : List Char) : List (List Char) :=
  ((sepSplit t).map pyStrip).filter (fun c => !c.isEmpty)

/-- Contents of a file in the knowledge-base directory: either a serialized
index (with `none` for data that `faiss.read_index` cannot parse) or a text
file. -/
inductive FileData
  | idx (d : Option FaissIndex)
  | txt (t : List Char)
deriving DecidableEq, Repr

/-- One entry of the directory listing. -/
structure DirEntry where
  name : List Char
  data : FileData
deriving DecidableEq, Repr

/-- `os.path.exists` / reading a file of the modelled directory. -/
def findFile : List DirEntry → List Char → Option FileData
  | [], _ => none
  | e :: rest, n => if e.name = n then some e.data else findFile rest n

/-- `faiss.read_index`: fails (`none`) unless the file holds a well-formed
serialized index. -/
def readIndexData : FileData → Option FaissIndex
  | .idx (some d) => some d
  | _ => none

/-- Reading a file as text. -/
def readTextData : FileData → List Char
  | .txt t => t
  | _ => []

def INDEX_SUFFIX : List Char := String.toList ".index"

def CHUNKS_SUFFIX : List Char := String.toList "_chunks.txt"

/-- `fname.endswith(suffix)`. -/
def endsWithL (suf l : List Char) : Bool := leadsWith suf.reverse l.reverse

/-- `fname[:-6]`: the base name of an index file. -/
def fnameBase (l : List Char) : List Char := l.take (l.length - 6)

/-- `KnowledgeBaseRetriever.__init__`: scan the listing; each `*.index`
entry whose companion `<base>_chunks.txt` exists is loaded
(`faiss.read_index` plus the chunk-file parse, appended to the parallel
lists); a `*.index` entry without a companion chunk file is skipped; a
non-parsable index file raises out of the constructor (`none`). -/
def loadSourcesAux (dir : List DirEntry) : List DirEntry → Option (List Source)
  | [] => some []
  | e :: rest =>
    if endsWithL INDEX_SUFFIX e.name then
      match findFile dir (fnameBase e.name ++ CHUNKS_SUFFIX) with
      | none => loadSourcesAux dir rest
      | some fd =>
        match readIndexData e.data, loadSourcesAux dir rest with
        | some ix, some srcs =>
            some (⟨ix, parseChunks (readTextData fd), fnameBase e.name⟩ :: srcs)
        | _, _ => none
    else loadSourcesAux dir rest

def loadSources (dir : List DirEntry) : Option (List Source) :=
  loadSourcesAux dir dir

/-! ### The ingestion pipeline `process_pdf_to_faiss` -/

/-- `store_embeddings`: a fresh `IndexFlatL2` holding one vector per
embedding row. -/
def store_embeddings (embs : List (List Int)) : FaissIndex := ⟨embs⟩

/-- `embed_chunks`: one vector per chunk, same order (the embedding model
is the injected capability `emb`). -/
def embed_chunks (emb : List Char → List Int) (chunks : List (List Char)) :
    List (List Int) :=
  chunks.map emb

/-- The chunk-file writing loop of `process_pdf_to_faiss`:
`f.write(chunk + '\n---\n')` for each chunk. -/
def writeChunksFile (chunks : List (List Char)) : List Char :=
  (chunks.map (fun c => c ++ SEP)).flatten

/-- `process_pdf_to_faiss` applied to already-extracted text: chunk with
the default `max_tokens = 400`, embed, store the index, and produce the
chunks-file content. -/
def process_pdf_to_faiss (emb : List Char → List Int) (text : List Char) :
    FaissIndex × List Char :=
  (store_embeddings (embed_chunks emb (chunk_text text 400)),
   writeChunksFile (chunk_text text 400))

/-! ### The ingestion state machine `ingest_files_background`
(backend/api/chatbot.py) -/

inductive IStatus
  | queued
  | in_progress
  | completed
  | failed
deriving DecidableEq, Repr

/-- One entry of the `ingest_tasks` dictionary; `percent` is `none` while
the key is absent. -/
structure TaskState where
  status : IStatus
  detail : String
  percent : Option Nat
deriving DecidableEq, Repr

/-- Outcome of processing one file of a batch.  A PDF failure propagates
(`process_pdf_to_faiss` is not wrapped in a handler); image processing
catches its own exception and falls back to storing raw OCR data, but the
fallback itself may raise, which also propagates. -/
inductive FileOutcome
  | pdfOk
  | pdfRaise (msg : String)
  | imgOk
  | imgFallbackOk
  | imgFallbackRaise (msg : String)
deriving DecidableEq, Repr

/-- The exception (if any) escaping the processing of one file. -/
def raisesMsg : FileOutcome → Option String
  | .pdfRaise m => some m
  | .imgFallbackRaise m => some m
  | _ => none

/-- Task state after the two update lines at the start of file `i`
(0-based) of an `n`-file batch:
`detail = f"Processing file {i+1}/{len(file_paths)}"` and
`percent = int((i / len(file_paths)) * 100)` (exact integer floor in the
model). -/
def fileStartState (n i : Nat) : TaskState :=
  ⟨.in_progress, "Processing file " ++ toString (i + 1) ++ "/" ++ toString n,
   some ((i * 100) / n)⟩

/-- The terminal state posted on full-batch completion. -/
def completedState (n : Nat) : TaskState :=
  ⟨.completed, "Successfully processed " ++ toString n ++ " files", some 100⟩

/-- The terminal state posted by the `except` handler. -/
def failedState (msg : String) : TaskState :=
  ⟨.failed, "Ingestion failed: " ++ msg, some 0⟩

/-- The file loop of `ingest_files_background`: the task states observed at
the start of each processed file (the failing file included), and the final
state. -/
def batchRun (n : Nat) : Nat → List FileOutcome → List TaskState × TaskState
  | _, [] => ([], completedState n)
  | i, o :: rest =>
    match raisesMsg o with
    | some m => ([fileStartState n i], failedState m)
    | none =>
      let r := batchRun n (i + 1) rest
      (fileStartState n i :: r.1, r.2)

/-- The state before the loop, posted when the background task starts:
`{"status": "in_progress", "detail": "Starting ingestion..."}` — note the
dictionary has no `percent` key yet. -/
def startingState : TaskState := ⟨.in_progress, "Starting ingestion...", none⟩

/-- `ingest_files_background` over a batch of files with the given
outcomes: the per-file-start task states and the final task state. -/
def ingest_files_background (files : List FileOutcome) :
    List TaskState × TaskState :=
  batchRun files.length 0 files

/-- The directory of `c5_load_exclusion_witness`: one complete source pair
plus one index file without a companion chunks file (to be skipped). -/
def c5WitnessDir : List DirEntry :=
  [⟨String.toList "a.index", .idx (some ⟨[[1]]⟩)⟩,
   ⟨String.toList "a_chunks.txt", .txt (String.toList "x\n---\n")⟩,
   ⟨String.toList "b.index", .idx (some ⟨[[2]]⟩)⟩]

theorem flushW_length (cur : List Char) : (flushW cur).length ≤ 1 := by
  unfold flushW; split <;> simp

theorem wordsAux_ws (cur : List Char) (c : Char) (b : List Char) (h : isWS c) :
    wordsAux cur (c :: b) = flushW cur ++ wordsAux [] b := by
  simp [wordsAux, h]

theorem wordsAux_not_ws (cur : List Char) (c : Char) (b : List Char) (h : ¬ isWS c) :
    wordsAux cur (c :: b) = wordsAux (c :: cur) b := by
  simp [wordsAux, h]

/-- Splitting across a whitespace character: the words on each side are
independent. -/
theorem wordsAux_append_ws (a : List Char) (c : Char) (h : isWS c) :
    ∀ (cur b : List Char), wordsAux cur (a ++ c :: b) = wordsAux cur a ++ words b := by
  induction a with
  | nil =>
    intro cur b
    rw [List.nil_append, wordsAux_ws cur c b h]
    rfl
  | cons d a ih =>
    intro cur b
    by_cases hd : isWS d
    · simp only [List.cons_append, wordsAux_ws _ d _ hd, ih, List.append_assoc,
        wordsAux_ws _ d _ hd]
    · simp only [List.cons_append, wordsAux_not_ws _ d _ hd, ih]

theorem words_append_ws (a : List Char) (c : Char) (b : List Char) (h : isWS c) :
    words (a ++ c :: b) = words a ++ words b := by
  simp [words, wordsAux_append_ws a c h]

theorem wc_append_ws (a : List Char) (c : Char) (b : List Char) (h : isWS c) :
    wc (a ++ c :: b) = wc a + wc b := by
  simp [wc, words_append_ws a c b h]

/-- The number of words produced by the scanner depends on the accumulator
only through its emptiness. -/
theorem wordsAux_length_congr :
    ∀ (b cur₁ cur₂ : List Char), cur₁ ≠ [] → cur₂ ≠ [] →
      (wordsAux cur₁ b).length = (wordsAux cur₂ b).length := by
  intro b
  induction b with
  | nil =>
    intro cur₁ cur₂ h₁ h₂
    simp [wordsAux, flushW, h₁, h₂]
  | cons c b ih =>
    intro cur₁ cur₂ h₁ h₂
    by_cases hc : isWS c
    · simp [wordsAux_ws _ c _ hc, flushW, h₁, h₂]
    · simp only [wordsAux_not_ws _ c _ hc]
      exact ih (c :: cur₁) (c :: cur₂) (by simp) (by simp)

theorem words_cons_not_ws (c : Char) (b : List Char) (h : ¬ isWS c) :
    words (c :: b) = wordsAux [c] b := by
  simp [words, wordsAux, h]

theorem words_cons_ws (c : Char) (b : List Char) (h : isWS c) :
    words (c :: b) = words b := by
  simp [words, wordsAux, h, flushW]

theorem words_length_le_wordsAux :
    ∀ (b cur : List Char), (words b).length ≤ (wordsAux cur b).length := by
  intro b
  induction b with
  | nil =>
    intro cur
    have h0 : (words []).length = 0 := rfl
    rw [h0]
    exact Nat.zero_le _
  | cons c b ih =>
    intro cur
    by_cases hc : isWS c
    · rw [words_cons_ws c b hc, wordsAux_ws _ c _ hc, List.length_append]
      have := ih []
      simp only [words] at this ⊢
      omega
    · rw [words_cons_not_ws c b hc, wordsAux_not_ws _ c _ hc]
      rcases List.eq_nil_or_concat cur with h | ⟨_, _, h⟩
      · subst h; exact Nat.le_refl _
      · have : cur ≠ [] := by subst h; simp
        exact Nat.le_of_eq (wordsAux_length_congr b [c] (c :: cur) (by simp) (by simp))

theorem wordsAux_length_le :
    ∀ (b cur : List Char),
      (wordsAux cur b).length ≤ (flushW cur).length + (words b).length := by
  intro b
  induction b with
  | nil => intro cur; simp [wordsAux, words, flushW]
  | cons c b ih =>
    intro cur
    by_cases hc : isWS c
    · rw [wordsAux_ws _ c _ hc, words_cons_ws c b hc, List.length_append]
      simp only [words]
      omega
    · rw [wordsAux_not_ws _ c _ hc, words_cons_not_ws c b hc]
      rcases List.eq_nil_or_concat cur with h | ⟨_, _, h⟩
      · subst h
        simp [flushW]
      · have hne : cur ≠ [] := by subst h; simp
        have h1 : (wordsAux (c :: cur) b).length = (wordsAux [c] b).length :=
          wordsAux_length_congr b (c :: cur) [c] (by simp) (by simp)
        omega

/-- Word-count superadditivity up to one merged word: concatenating two
strings can fuse at most one word at the junction. -/
theorem wc_append_ge :
    ∀ (a b : List Char), wc a + wc b ≤ wc (a ++ b) + 1 := by
  suffices h : ∀ (a cur b : List Char),
      (wordsAux cur a).length + (words b).length ≤ (wordsAux cur (a ++ b)).length + 1 by
    intro a b; exact h a [] b
  intro a
  induction a with
  | nil =>
    intro cur b
    have h1 := words_length_le_wordsAux b cur
    have h2 := flushW_length cur
    simp only [List.nil_append, wordsAux, words] at h1 ⊢
    omega
  | cons c a ih =>
    intro cur b
    by_cases hc : isWS c
    · simp only [List.cons_append, wordsAux_ws _ c _ hc, List.length_append]
      have := ih [] b
      omega
    · simp only [List.cons_append, wordsAux_not_ws _ c _ hc]
      exact ih (c :: cur) b

theorem words_lstrip (l : List Char) : words (lstrip l) = words l := by
  induction l with
  | nil => rfl
  | cons c l ih =>
    by_cases hc : isWS c
    · rw [lstrip, List.dropWhile_cons_of_pos hc, words_cons_ws c l hc]
      exact ih
    · rw [lstrip, List.dropWhile_cons_of_neg (by simpa using hc)]

/-- Appending trailing whitespace does not change the words. -/
theorem wordsAux_append_all_ws :
    ∀ (a cur t : List Char), (∀ c ∈ t, isWS c) → wordsAux cur (a ++ t) = wordsAux cur a := by
  have base : ∀ (t : List Char), (∀ c ∈ t, isWS c) → ∀ cur, wordsAux cur t = flushW cur := by
    intro t
    induction t with
    | nil => intro _ cur; rfl
    | cons c t ih =>
      intro h cur
      rw [wordsAux_ws cur c t (h c (by simp)), ih (fun d hd => h d (by simp [hd]))]
      simp [flushW]
  intro a
  induction a with
  | nil =>
    intro cur t ht
    rw [List.nil_append, base t ht cur]
    rfl
  | cons c a ih =>
    intro cur t ht
    by_cases hc : isWS c
    · rw [List.cons_append, wordsAux_ws _ c _ hc, wordsAux_ws _ c _ hc, ih [] t ht]
    · rw [List.cons_append, wordsAux_not_ws _ c _ hc, wordsAux_not_ws _ c _ hc, ih _ t ht]

theorem words_rstrip (l : List Char) : words (rstrip l) = words l := by
  have hdecomp : l = rstrip l ++ (l.reverse.takeWhile isWS).reverse := by
    rw [rstrip]
    have h := List.takeWhile_append_dropWhile (p := isWS) (l := l.reverse)
    calc l = l.reverse.reverse := by rw [List.reverse_reverse]
      _ = (l.reverse.takeWhile isWS ++ l.reverse.dropWhile isWS).reverse := by rw [h]
      _ = (l.reverse.dropWhile isWS).reverse ++ (l.reverse.takeWhile isWS).reverse := by
          rw [List.reverse_append]
  have hws : ∀ c ∈ (l.reverse.takeWhile isWS).reverse, isWS c := by
    intro c hc
    rw [List.mem_reverse] at hc
    exact List.mem_takeWhile_imp hc
  conv_rhs => rw [hdecomp]
  rw [words, words, wordsAux_append_all_ws _ [] _ hws]

theorem words_pyStrip (l : List Char) : words (pyStrip l) = words l := by
  rw [pyStrip, words_lstrip, words_rstrip]

theorem wc_pyStrip (l : List Char) : wc (pyStrip l) = wc l := by
  simp [wc, words_pyStrip]

/-- The sentence pieces carry exactly the words of the scanned text: the
delimiter characters consumed by `ssAux` are all spaces. -/
theorem ssAux_words :
    ∀ (input : List Char),
      (∀ (cur : List Char) (after : Bool),
        ((ssAux cur after false input).map words).flatten = words (cur ++ input))
      ∧ ((ssAux [] false true input).map words).flatten = words input := by
  intro input
  induction input with
  | nil =>
    refine ⟨fun cur after => ?_, ?_⟩
    · simp [ssAux, words]
    · simp [ssAux, words]
  | cons c rest ih =>
    refine ⟨fun cur after => ?_, ?_⟩
    · by_cases hc : (c == ' ' && after) = true
      · rw [ssAux, if_neg (by simp), if_pos hc]
        simp only [List.map_cons, List.flatten_cons, ih.2]
        have hsp : c = ' ' := by
          simp only [Bool.and_eq_true, beq_iff_eq] at hc
          exact hc.1
        subst hsp
        rw [words_append_ws cur ' ' rest (by decide)]
      · rw [ssAux, if_neg (by simp), if_neg hc, (ih.1 (cur ++ [c]) (isTerm c)),
          List.append_assoc, List.singleton_append]
    · by_cases hc : (c == ' ') = true
      · rw [ssAux, if_pos rfl, if_pos hc, ih.2]
        have hsp : c = ' ' := by simpa using hc
        subst hsp
        rw [words_cons_ws ' ' rest (by decide)]
      · rw [ssAux, if_pos rfl, if_neg hc]
        have h1 := ih.1 [c] (isTerm c)
        rw [h1, List.singleton_append]

theorem words_splitSentences (text : List Char) :
    ((splitSentences text).map words).flatten = words text := by
  have h := (ssAux_words text).1 [] false
  simpa [splitSentences] using h

/-- Invariant of the accumulation loop: every emitted chunk either stays
within `maxT + 1` words, or is the strip of the incoming accumulator or of
one of the remaining sentences. -/
theorem chunkLoop_wc_bound (maxT : Nat) :
    ∀ (ss : List (List Char)) (chunk : List Char),
      ∀ c ∈ chunkLoop maxT chunk ss,
        wc c ≤ maxT + 1 ∨ c = pyStrip chunk ∨ ∃ s ∈ ss, c = pyStrip s := by
  intro ss
  induction ss with
  | nil =>
    intro chunk c hc
    by_cases he : chunk.isEmpty
    · rw [chunkLoop, if_pos he] at hc
      simp at hc
    · rw [chunkLoop, if_neg he] at hc
      right; left
      simpa using hc
  | cons s rest ih =>
    intro chunk c hc
    by_cases hov : maxT < wc (chunk ++ s)
    · rw [chunkLoop, if_pos hov] at hc
      rcases List.mem_cons.mp hc with h | h
      · right; left; exact h
      · rcases ih s c h with h1 | h1 | h1
        · left; exact h1
        · right; right; exact ⟨s, by simp, h1⟩
        · rcases h1 with ⟨t, ht, h2⟩
          right; right; exact ⟨t, by simp [ht], h2⟩
    · rw [chunkLoop, if_neg hov] at hc
      rcases ih (chunk ++ ' ' :: s) c hc with h1 | h1 | h1
      · left; exact h1
      · left
        rw [h1, wc_pyStrip]
        have h2 : wc (chunk ++ ' ' :: s) = wc chunk + wc s :=
          wc_append_ws chunk ' ' s (by decide)
        have h3 := wc_append_ge chunk s
        omega
      · rcases h1 with ⟨t, ht, h2⟩
        right; right; exact ⟨t, by simp [ht], h2⟩

/-- The accumulation loop preserves word content: the words of all emitted
chunks are the accumulator's words followed by those of the sentences. -/
theorem chunkLoop_words (maxT : Nat) :
    ∀ (ss : List (List Char)) (chunk : List Char),
      ((chunkLoop maxT chunk ss).map words).flatten
        = words chunk ++ (ss.map words).flatten := by
  intro ss
  induction ss with
  | nil =>
    intro chunk
    by_cases he : chunk.isEmpty
    · rw [chunkLoop, if_pos he]
      have h0 : chunk = [] := by
        cases chunk with
        | nil => rfl
        | cons a l => simp [List.isEmpty] at he
      subst h0
      rfl
    · rw [chunkLoop, if_neg he]
      simp [words_pyStrip]
  | cons s rest ih =>
    intro chunk
    by_cases hov : maxT < wc (chunk ++ s)
    · rw [chunkLoop, if_pos hov]
      simp only [List.map_cons, List.flatten_cons, ih s, words_pyStrip,
        List.append_assoc]
    · rw [chunkLoop, if_neg hov, ih (chunk ++ ' ' :: s),
        words_append_ws chunk ' ' s (by decide), List.map_cons, List.flatten_cons,
        List.append_assoc]

theorem words_joinChunksSp :
    ∀ (l : List (List Char)), words (joinChunksSp l) = (l.map words).flatten := by
  intro l
  induction l with
  | nil => rfl
  | cons a rest ih =>
    cases rest with
    | nil => simp [joinChunksSp, List.intercalate, words]
    | cons b t =>
      have hstep : joinChunksSp (a :: b :: t) = a ++ ' ' :: joinChunksSp (b :: t) := by
        simp [joinChunksSp, List.intercalate, List.intersperse]
      rw [hstep, words_append_ws a ' ' _ (by decide), ih]
      simp

/-- Each element's image is a contiguous segment of the flattened map. -/
theorem flatten_map_segment {α β : Type} (f : α → List β) :
    ∀ (l : List α), ∀ x ∈ l, ∃ p q, (l.map f).flatten = p ++ f x ++ q := by
  intro l
  induction l with
  | nil => intro x hx; simp at hx
  | cons a rest ih =>
    intro x hx
    rcases List.mem_cons.mp hx with h | h
    · subst h
      exact ⟨[], (rest.map f).flatten, by simp⟩
    · rcases ih x h with ⟨p, q, hpq⟩
      exact ⟨f a ++ p, q, by simp [hpq]⟩

/-! ### Claims about the chunker (C2, C6, C8) -/

/-- C2, counterexample: with `maxTokens = 2` on input `"a. b. c."`,
`chunk_text` emits a single chunk of word count 3 > 2 that is not a single
sentence.  The overflow test `len((chunk + sentence).split()) > max_tokens`
concatenates without a joining space, so the last word of the accumulator
fuses with the first word of the candidate sentence and the test
undercounts by one. -/
theorem c2_counterexample :
    ∃ c ∈ chunk_text ("a. b. c.".toList) 2,
      2 < wc c ∧ ¬ ∃ s ∈ splitSentences ("a. b. c.".toList), c = pyStrip s := by
  decide

/-- C2 (amended): for every input text and every `maxTokens`, no chunk
emitted by `chunk_text` has a whitespace-delimited word count exceeding
`maxTokens + 1` (one more than the claimed `maxTokens`), except a chunk
that is a single (stripped) sentence of the input, which may be arbitrarily
long. -/
theorem c2_chunk_word_bound (text : List Char) (maxT : Nat) :
    ∀ c ∈ chunk_text text maxT,
      wc c ≤ maxT + 1 ∨ ∃ s ∈ splitSentences text, c = pyStrip s := by
  intro c hc
  rcases chunkLoop_wc_bound maxT (splitSentences text) [] c hc with h | h | h
  · left; exact h
  · left
    rw [h]
    exact Nat.zero_le _
  · right; exact h

/-- Witness for `c2_chunk_word_bound` at `text = "a."`, `maxTokens = 1`,
chunk `"a."`. -/
theorem c2_chunk_word_bound_witness :
    wc ("a.".toList) ≤ 1 + 1 ∨ ∃ s ∈ splitSentences ("a.".toList), "a.".toList = pyStrip s :=
  c2_chunk_word_bound ("a.".toList) 1 ("a.".toList) (by decide)

/-- C6, counterexample: `chunk_text` applied to the empty string does not
return an empty sequence (it returns `[""]`): the single empty sentence is
accumulated as the truthy string `" "` and is emitted stripped. -/
theorem c6_counterexample : ¬ (chunk_text [] 400 = []) := by decide

/-- C6 (amended): for every `maxTokens`, `chunk_text` applied to the empty
string returns the singleton sequence containing one empty chunk. -/
theorem c6_chunk_text_empty (maxT : Nat) : chunk_text [] maxT = [[]] := by
  have h0 : ¬ maxT < wc (([] : List Char) ++ []) := by
    have h1 : wc (([] : List Char) ++ []) = 0 := rfl
    omega
  show chunkLoop maxT [] (ssAux [] false false []) = [[]]
  rw [show ssAux [] false false [] = [[]] from rfl, chunkLoop, if_neg h0, chunkLoop,
    if_neg (by decide)]
  rfl

/-- C8: sentence-granularity round trip.  Joining the chunks of
`chunk_text` with single spaces preserves the word sequence of the input
text exactly, and consequently every sentence's word sequence occurs
contiguously in the joined output — no sentence is dropped (the round trip
is at word/sentence granularity, not character-exact). -/
theorem c8_round_trip (text : List Char) (maxT : Nat) :
    words (joinChunksSp (chunk_text text maxT)) = words text
      ∧ ∀ s ∈ splitSentences text,
          ∃ p q, words (joinChunksSp (chunk_text text maxT)) = p ++ words s ++ q := by
  have hmain : words (joinChunksSp (chunk_text text maxT)) = words text := by
    calc words (joinChunksSp (chunk_text text maxT))
        = ((chunk_text text maxT).map words).flatten := words_joinChunksSp _
      _ = words [] ++ ((splitSentences text).map words).flatten :=
          chunkLoop_words maxT (splitSentences text) []
      _ = words text := by rw [words_splitSentences]; rfl
  refine ⟨hmain, fun s hs => ?_⟩
  rcases flatten_map_segment words (splitSentences text) s hs with ⟨p, q, hpq⟩
  refine ⟨p, q, ?_⟩
  rw [hmain, ← words_splitSentences text, hpq]

/-- Witness for `c8_round_trip` at `text = "a. b."`, `maxTokens = 1`. -/
theorem c8_round_trip_witness :
    words (joinChunksSp (chunk_text ("a. b.".toList) 1)) = words ("a. b.".toList)
      ∧ ∀ s ∈ splitSentences ("a. b.".toList),
          ∃ p q, words (joinChunksSp (chunk_text ("a. b.".toList) 1)) = p ++ words s ++ q :=
  c8_round_trip ("a. b.".toList) 1

/-! ### Claims about the pipeline and the ingestion state machine
(C1, C3, C7) -/

/-- C1 (code bug): for an ingested file whose extracted text is empty, the
pipeline stores one vector — the single empty chunk produced by
`chunk_text` is embedded and added — while the retriever's chunk-file parse
recovers zero passages, because empty chunks are written to the chunks file
but filtered out (`if c.strip()`) on re-parse.  The
`index.count == len(passages)` invariant is broken. -/
theorem c1_pipeline_mismatch (emb : List Char → List Int) :
    (process_pdf_to_faiss emb []).1.vecs.length = 1
      ∧ (parseChunks (process_pdf_to_faiss emb []).2).length = 0 := by
  have h : chunk_text [] 400 = [[]] := by decide
  constructor
  · show ((chunk_text [] 400).map emb).length = 1
    rw [h]
    rfl
  · show (parseChunks (writeChunksFile (chunk_text [] 400))).length = 0
    decide

/-- Index `j` of the trace of the batch loop, while no earlier file has
raised: the state posted at the start of file `i0 + j`. -/
theorem batchRun_get (outs : List FileOutcome) :
    ∀ (n i0 j : Nat), j < outs.length →
      (∀ k, k < j → ∀ o, outs.get? k = some o → raisesMsg o = none) →
      (batchRun n i0 outs).1.get? j = some (fileStartState n (i0 + j)) := by
  induction outs with
  | nil =>
    intro n i0 j hj _
    simp at hj
  | cons o rest ih =>
    intro n i0 j hj hok
    match hro : raisesMsg o with
    | some m =>
      match j with
      | 0 =>
        rw [batchRun, hro]
        rfl
      | j' + 1 =>
        have := hok 0 (by omega) o rfl
        rw [this] at hro
        cases hro
    | none =>
      rw [batchRun, hro]
      match j with
      | 0 => rfl
      | j' + 1 =>
        have hj' : j' < rest.length := by
          simp only [List.length_cons] at hj
          omega
        have hok' : ∀ k, k < j' → ∀ o', rest.get? k = some o' → raisesMsg o' = none := by
          intro k hk o' ho'
          exact hok (k + 1) (by omega) o' ho'
        have step := ih n (i0 + 1) j' hj' hok'
        have harith : i0 + 1 + j' = i0 + (j' + 1) := by omega
        rw [← harith]
        simpa using step

/-- C7, counterexample: in a batch of 2 files, when the 1st file begins
processing the task's percent is 0 — the code computes
`int((i / N) * 100)` from the 0-based loop index — while the claim's
formula `floor(i/N * 100)` with the 1-based `i` gives 50. -/
theorem c7_counterexample :
    (ingest_files_background [.pdfOk, .pdfOk]).1.get? 0
        = some ⟨.in_progress, "Processing file 1/2", some 0⟩
      ∧ (0 : Nat) ≠ 1 * 100 / 2 := by
  exact ⟨rfl, by decide⟩

/-- C7 (amended): during a batch of `N` files, when the `i`-th file
(1-based) begins processing — no earlier file having raised — the session's
task has detail `"Processing file i/N"` and
`percent = floor((i-1)/N * 100)`: the percentage is computed from the
0-based loop index, one file behind the claim's `floor(i/N * 100)`. -/
theorem c7_progress_state (files : List FileOutcome) (i : Nat)
    (h1 : 1 ≤ i) (h2 : i ≤ files.length)
    (hok : ∀ j, j + 1 < i → ∀ o, files.get? j = some o → raisesMsg o = none) :
    (ingest_files_background files).1.get? (i - 1)
      = some ⟨.in_progress,
          "Processing file " ++ toString i ++ "/" ++ toString files.length,
          some (((i - 1) * 100) / files.length)⟩ := by
  have h := batchRun_get files files.length 0 (i - 1) (by omega)
    (fun k hk o ho => hok k (by omega) o ho)
  rw [ingest_files_background, h]
  have hi : i - 1 + 1 = i := by omega
  rw [fileStartState, Nat.zero_add, hi]

/-- Witness for `c7_progress_state`: batch `[pdfOk, pdfOk]`, file `i = 2`. -/
theorem c7_progress_state_witness :
    (ingest_files_background [.pdfOk, .pdfOk]).1.get? (2 - 1)
      = some ⟨.in_progress,
          "Processing file " ++ toString 2 ++ "/" ++ toString ([FileOutcome.pdfOk, .pdfOk].length),
          some (((2 - 1) * 100) / [FileOutcome.pdfOk, .pdfOk].length)⟩ :=
  c7_progress_state [.pdfOk, .pdfOk] 2 (by decide) (by decide)
    (by
      intro j hj o ho
      have hj0 : j = 0 := by omega
      subst hj0
      have : o = FileOutcome.pdfOk := by
        simpa using ho.symm
      subst this
      rfl)

/-- C3, counterexample: in the batch `[ok, raise "boom"]` the last observed
percent before the exception is 50, but the terminal failed state posts
percent 0 — the handler writes `"percent": 0` instead of leaving the last
known value. -/
theorem c3_counterexample :
    (ingest_files_background [.pdfOk, .pdfRaise "boom"]).1.get? 1
        = some ⟨.in_progress, "Processing file 2/2", some 50⟩
      ∧ (ingest_files_background [.pdfOk, .pdfRaise "boom"]).2
        = ⟨.failed, "Ingestion failed: boom", some 0⟩
      ∧ some (0 : Nat) ≠ some 50 := by
  exact ⟨rfl, rfl, by decide⟩

/-- C3 (amended): if an unrecovered exception occurs during a session's
ingestion batch, the task is set to status `failed` with the exception
detail captured in `detail` — but `percent` is reset to 0, not left at its
last known value. -/
theorem c3_failed_state (pre post : List FileOutcome) (o : FileOutcome) (m : String)
    (hpre : ∀ p ∈ pre, raisesMsg p = none) (ho : raisesMsg o = some m) :
    (ingest_files_background (pre ++ o :: post)).2
      = ⟨.failed, "Ingestion failed: " ++ m, some 0⟩ := by
  suffices h : ∀ (n i0 : Nat) (pre' : List FileOutcome),
      (∀ p ∈ pre', raisesMsg p = none) →
      (batchRun n i0 (pre' ++ o :: post)).2 = failedState m by
    exact h _ 0 pre hpre
  intro n i0 pre'
  induction pre' generalizing i0 with
  | nil =>
    intro _
    rw [List.nil_append, batchRun, ho]
  | cons p pre'' ih =>
    intro hp
    rw [List.cons_append, batchRun, hp p (by simp)]
    exact ih (i0 + 1) (fun q hq => hp q (by simp [hq]))

/-- Witness for `c3_failed_state`: batch `[pdfOk, pdfRaise "x"]`. -/
theorem c3_failed_state_witness :
    (ingest_files_background ([FileOutcome.pdfOk] ++ FileOutcome.pdfRaise "x" :: [])).2
      = ⟨.failed, "Ingestion failed: " ++ "x", some 0⟩ :=
  c3_failed_state [FileOutcome.pdfOk] [] (FileOutcome.pdfRaise "x") "x"
    (by decide) rfl

/-! ### Supporting lemmas for the retriever claims -/

theorem mem_insertLE {α : Type} (le : α → α → Bool) (a x : α) :
    ∀ l : List α, x ∈ insertLE le a l ↔ x = a ∨ x ∈ l := by
  intro l
  induction l with
  | nil => simp [insertLE]
  | cons b l ih =>
    rw [insertLE]
    split
    · simp only [List.mem_cons, ih]
      tauto
    · simp only [List.mem_cons]

theorem mem_stableSort {α : Type} (le : α → α → Bool) (x : α) (l : List α) :
    x ∈ stableSort le l ↔ x ∈ l := by
  suffices h : ∀ (l acc : List α),
      x ∈ l.foldl (fun acc a => insertLE le a acc) acc ↔ x ∈ acc ∨ x ∈ l by
    rw [stableSort, h]
    simp
  intro l
  induction l with
  | nil => simp
  | cons a l ih =>
    intro acc
    rw [List.foldl_cons, ih (insertLE le a acc), mem_insertLE]
    simp only [List.mem_cons]
    tauto

theorem distPairs_id_lt (q : List Int) :
    ∀ (vs : List (List Int)) (i0 : Nat), ∀ p ∈ distPairs q i0 vs, p.2 < i0 + vs.length := by
  intro vs
  induction vs with
  | nil =>
    intro i0 p hp
    simp [distPairs] at hp
  | cons v vs ih =>
    intro i0 p hp
    rw [distPairs] at hp
    rcases List.mem_cons.mp hp with h | h
    · subst h
      simp only [List.length_cons]
      omega
    · have := ih (i0 + 1) p h
      simp only [List.length_cons]
      omega

/-- Every internal id returned by a search is a valid position of the
index's vector list. -/
theorem faissSearch_id_lt (idx : FaissIndex) (q : List Int) (k : Nat) :
    ∀ p ∈ faissSearch idx q k, p.2 < idx.vecs.length := by
  intro p hp
  have h1 := List.mem_of_mem_take hp
  have h2 := (mem_stableSort _ p _).mp h1
  have h3 := distPairs_id_lt q idx.vecs 0 p h2
  simpa using h3

theorem get?_eq_some_getD {α : Type} (l : List α) (d : α) :
    ∀ i, i < l.length → l.get? i = some (l.getD i d) := by
  induction l with
  | nil =>
    intro i hi
    simp at hi
  | cons a l ih =>
    intro i hi
    match i with
    | 0 => rfl
    | i' + 1 =>
      have := ih i' (by simpa using hi)
      simpa [List.getD] using this

/-- When every returned id is in range, the per-source loop succeeds and
produces exactly the spec-side sublist. -/
theorem mkResultsAux_some (chunks : List (List Char)) (src : List Char) :
    ∀ (pairs : List (Int × Nat)) (r : Nat),
      (∀ p ∈ pairs, p.2 < chunks.length) →
      mkResultsAux chunks src r pairs = some (specMkResults chunks src r pairs) := by
  intro pairs
  induction pairs with
  | nil => intro r _; rfl
  | cons p rest ih =>
    intro r h
    obtain ⟨d, i⟩ := p
    have hi : i < chunks.length := by
      have := h (d, i) (by simp)
      simpa using this
    have hget := get?_eq_some_getD chunks [] i hi
    rw [mkResultsAux, hget, ih (r + 1) (fun q hq => h q (by simp [hq]))]
    rfl

/-- Each element of a successful per-source sublist has `rank` one more
than its position in that sublist (offset by the starting counter). -/
theorem mkResultsAux_rank (chunks : List (List Char)) (src : List Char) :
    ∀ (pairs : List (Int × Nat)) (r : Nat) (out : List RResult),
      mkResultsAux chunks src r pairs = some out →
      ∀ (j : Nat) (x : RResult), out.get? j = some x → x.rank = r + j + 1 := by
  intro pairs
  induction pairs with
  | nil =>
    intro r out h j x hj
    rw [mkResultsAux] at h
    injection h with h'
    subst h'
    simp at hj
  | cons p rest ih =>
    intro r out h j x hj
    obtain ⟨d, i⟩ := p
    rw [mkResultsAux] at h
    cases hc : chunks.get? i with
    | none => rw [hc] at h; cases h
    | some c =>
      cases hm : mkResultsAux chunks src (r + 1) rest with
      | none => rw [hc, hm] at h; cases h
      | some out' =>
        rw [hc, hm] at h
        injection h with h'
        subst h'
        match j with
        | 0 =>
          injection hj with hj'
          subst hj'
          rfl
        | j' + 1 =>
          have := ih (r + 1) out' hm j' x (by simpa using hj)
          omega

/-- Each element of a successful per-source sublist is tagged with that
source's name. -/
theorem mkResultsAux_source (chunks : List (List Char)) (src : List Char) :
    ∀ (pairs : List (Int × Nat)) (r : Nat) (out : List RResult),
      mkResultsAux chunks src r pairs = some out →
      ∀ x ∈ out, x.source = src := by
  intro pairs
  induction pairs with
  | nil =>
    intro r out h x hx
    rw [mkResultsAux] at h
    injection h with h'
    subst h'
    simp at hx
  | cons p rest ih =>
    intro r out h x hx
    obtain ⟨d, i⟩ := p
    rw [mkResultsAux] at h
    cases hc : chunks.get? i with
    | none => rw [hc] at h; cases h
    | some c =>
      cases hm : mkResultsAux chunks src (r + 1) rest with
      | none => rw [hc, hm] at h; cases h
      | some out' =>
        rw [hc, hm] at h
        injection h with h'
        subst h'
        rcases List.mem_cons.mp hx with h1 | h1
        · subst h1; rfl
        · exact ih (r + 1) out' hm x h1

theorem optMap_eq_some_map {α β : Type} (f : α → Option β) (g : α → β) :
    ∀ l : List α, (∀ a ∈ l, f a = some (g a)) → optMap f l = some (l.map g) := by
  intro l
  induction l with
  | nil => intro _; rfl
  | cons a l ih =>
    intro h
    rw [optMap, h a (by simp), ih (fun b hb => h b (by simp [hb]))]
    rfl

theorem optMap_mem {α β : Type} (f : α → Option β) :
    ∀ (l : List α) (bs : List β), optMap f l = some bs →
      ∀ b ∈ bs, ∃ a ∈ l, f a = some b := by
  intro l
  induction l with
  | nil =>
    intro bs h b hb
    rw [optMap] at h
    injection h with h'
    subst h'
    simp at hb
  | cons a l ih =>
    intro bs h b hb
    rw [optMap] at h
    cases hfa : f a with
    | none => rw [hfa] at h; cases h
    | some b0 =>
      cases hm : optMap f l with
      | none => rw [hfa, hm] at h; cases h
      | some bs' =>
        rw [hfa, hm] at h
        injection h with h'
        subst h'
        rcases List.mem_cons.mp hb with h1 | h1
        · subst h1; exact ⟨a, by simp, hfa⟩
        · rcases ih bs' hm b h1 with ⟨a', ha', hfa'⟩
          exact ⟨a', by simp [ha'], hfa'⟩

/-- On a well-formed collection (each index holds exactly as many vectors
as its chunk list), `retrieve` succeeds and computes the spec-side
description. -/
theorem retrieve_eq_spec_of_wf (emb : List Char → List Int) (srcs : List Source)
    (query : List Char) (top_k : Nat)
    (hwf : ∀ s ∈ srcs, s.index.vecs.length = s.chunks.length) :
    retrieve emb srcs query top_k = some (retrieveSpec emb srcs query top_k) := by
  have hsome : optMap (fun s =>
      mkResults s.chunks s.sname
        (faissSearch s.index (emb query) (min top_k s.chunks.length))) srcs
      = some (srcs.map (fun s => specMkResults s.chunks s.sname 0
          (faissSearch s.index (emb query) (min top_k s.chunks.length)))) := by
    apply optMap_eq_some_map
    intro s hs
    apply mkResultsAux_some
    intro p hp
    have h := faissSearch_id_lt s.index (emb query) _ p hp
    rwa [hwf s hs] at h
  unfold retrieve
  rw [hsome]
  rfl

/-- Every returned result carries the name of one of the collection's
sources. -/
theorem retrieve_source_mem (emb : List Char → List Int) (srcs : List Source)
    (query : List Char) (top_k : Nat) (rs : List RResult)
    (h : retrieve emb srcs query top_k = some rs) :
    ∀ r ∈ rs, ∃ s ∈ srcs, r.source = s.sname := by
  intro r hr
  unfold retrieve at h
  cases hopt : optMap (fun s =>
      mkResults s.chunks s.sname
        (faissSearch s.index (emb query) (min top_k s.chunks.length))) srcs with
  | none => rw [hopt] at h; cases h
  | some ls =>
    rw [hopt] at h
    injection h with h'
    subst h'
    have h1 := List.mem_of_mem_take hr
    have h2 := (mem_stableSort _ r _).mp h1
    rcases List.mem_flatten.mp h2 with ⟨sub, hsub, hrsub⟩
    rcases optMap_mem _ srcs ls hopt sub hsub with ⟨s, hs, hfs⟩
    exact ⟨s, hs, mkResultsAux_source s.chunks s.sname _ 0 sub hfs r hrsub⟩

/-! ### Claims about the retriever (C4, C9, C10) -/

/-- C4, counterexample: on a collection state whose index holds two vectors
while its chunk list holds one passage, `retrieve` raises an `IndexError`
(the nearest id is 1, `chunks[1]` is out of range) instead of returning the
described merged result list — the claim's "for every collection state"
fails. -/
theorem c4_counterexample :
    retrieve (fun _ => [0])
        [⟨⟨[[10], [0]]⟩, [String.toList "aa"], String.toList "s"⟩]
        (String.toList "q") 1
      ≠ some (retrieveSpec (fun _ => [0])
        [⟨⟨[[10], [0]]⟩, [String.toList "aa"], String.toList "s"⟩]
        (String.toList "q") 1) := by
  decide

/-- C4 (amended): on every collection state in which each source's index
holds exactly as many vectors as its passage list (the persisted
invariant), and for every query and `topK`, `retrieve` returns exactly the
spec description — query each source with `min(topK, passageCount)`,
concatenate the per-source sublists, stably re-sort by ascending distance,
truncate to `topK` — and in particular returns at most `topK` results. -/
theorem c4_retrieve_spec (emb : List Char → List Int) (srcs : List Source)
    (query : List Char) (top_k : Nat)
    (hwf : ∀ s ∈ srcs, s.index.vecs.length = s.chunks.length) :
    retrieve emb srcs query top_k = some (retrieveSpec emb srcs query top_k)
      ∧ (retrieveSpec emb srcs query top_k).length ≤ top_k := by
  refine ⟨retrieve_eq_spec_of_wf emb srcs query top_k hwf, ?_⟩
  rw [retrieveSpec, List.length_take]
  exact Nat.min_le_left _ _

/-- Witness for `c4_retrieve_spec`: one well-formed source with two
passages, `topK = 2`. -/
theorem c4_retrieve_spec_witness :
    retrieve (fun _ => [0])
        [⟨⟨[[0], [3]]⟩, [String.toList "aa", String.toList "bb"], String.toList "s"⟩]
        (String.toList "q") 2
      = some (retrieveSpec (fun _ => [0])
        [⟨⟨[[0], [3]]⟩, [String.toList "aa", String.toList "bb"], String.toList "s"⟩]
        (String.toList "q") 2)
      ∧ (retrieveSpec (fun _ => [0])
        [⟨⟨[[0], [3]]⟩, [String.toList "aa", String.toList "bb"], String.toList "s"⟩]
        (String.toList "q") 2).length ≤ 2 :=
  c4_retrieve_spec (fun _ => [0])
    [⟨⟨[[0], [3]]⟩, [String.toList "aa", String.toList "bb"], String.toList "s"⟩]
    (String.toList "q") 2 (by decide)

/-- C9: every result returned by `retrieve` carries a `rank` equal to its
1-based position within its own source's result sublist (the order produced
by that source's index search), not its position in the globally merged and
re-sorted output. -/
theorem c9_rank_per_source (emb : List Char → List Int) (srcs : List Source)
    (query : List Char) (top_k : Nat) (rs : List RResult)
    (h : retrieve emb srcs query top_k = some rs) :
    ∀ r ∈ rs, ∃ s ∈ srcs, ∃ (sub : List RResult) (j : Nat),
      mkResults s.chunks s.sname
          (faissSearch s.index (emb query) (min top_k s.chunks.length)) = some sub
        ∧ sub.get? j = some r ∧ r.rank = j + 1 := by
  intro r hr
  unfold retrieve at h
  cases hopt : optMap (fun s =>
      mkResults s.chunks s.sname
        (faissSearch s.index (emb query) (min top_k s.chunks.length))) srcs with
  | none => rw [hopt] at h; cases h
  | some ls =>
    rw [hopt] at h
    injection h with h'
    subst h'
    have h1 := List.mem_of_mem_take hr
    have h2 := (mem_stableSort _ r _).mp h1
    rcases List.mem_flatten.mp h2 with ⟨sub, hsub, hrsub⟩
    rcases optMap_mem _ srcs ls hopt sub hsub with ⟨s, hs, hfs⟩
    rcases List.get?_of_mem hrsub with ⟨j, hj⟩
    have hrank := mkResultsAux_rank s.chunks s.sname _ 0 sub hfs j r hj
    exact ⟨s, hs, sub, j, hfs, hj, by omega⟩

/-- Witness for `c9_rank_per_source` on a concrete loaded collection, at
the concrete returned result `{'chunk': "bb", 'score': 9, 'source': "s",
'rank': 2}`. -/
theorem c9_rank_per_source_witness :
    ∃ s ∈ [(⟨⟨[[0], [3]]⟩, [String.toList "aa", String.toList "bb"],
             String.toList "s"⟩ : Source)],
      ∃ (sub : List RResult) (j : Nat),
        mkResults s.chunks s.sname
            (faissSearch s.index ((fun _ => [0]) (String.toList "q"))
              (min 2 s.chunks.length)) = some sub
          ∧ sub.get? j = some ⟨String.toList "bb", 9, String.toList "s", 2⟩
          ∧ (⟨String.toList "bb", 9, String.toList "s", 2⟩ : RResult).rank = j + 1 :=
  c9_rank_per_source (fun _ => [0])
    [⟨⟨[[0], [3]]⟩, [String.toList "aa", String.toList "bb"], String.toList "s"⟩]
    (String.toList "q") 2
    [⟨String.toList "aa", 0, String.toList "s", 1⟩,
     ⟨String.toList "bb", 9, String.toList "s", 2⟩]
    (by decide)
    ⟨String.toList "bb", 9, String.toList "s", 2⟩
    (by decide)

/-- C10: on every loaded collection in which each source's index holds
exactly as many vectors as that source's parsed chunk list, every internal
id returned by an index search inside `retrieve` is a valid position of
that source's chunk list, so every passage lookup is in range and
`retrieve` returns a result list rather than raising. -/
theorem c10_ids_in_range (emb : List Char → List Int) (srcs : List Source)
    (query : List Char) (top_k : Nat)
    (hwf : ∀ s ∈ srcs, s.index.vecs.length = s.chunks.length) :
    (∀ s ∈ srcs, ∀ p ∈ faissSearch s.index (emb query) (min top_k s.chunks.length),
        p.2 < s.chunks.length)
      ∧ ∃ rs, retrieve emb srcs query top_k = some rs := by
  constructor
  · intro s hs p hp
    have h := faissSearch_id_lt s.index (emb query) _ p hp
    rwa [hwf s hs] at h
  · exact ⟨retrieveSpec emb srcs query top_k,
      retrieve_eq_spec_of_wf emb srcs query top_k hwf⟩

/-- Witness for `c10_ids_in_range` on a concrete well-formed collection. -/
theorem c10_ids_in_range_witness :
    (∀ s ∈ [(⟨⟨[[0], [3]]⟩, [String.toList "aa", String.toList "bb"],
             String.toList "s"⟩ : Source)],
        ∀ p ∈ faissSearch s.index ((fun _ => ([0] : List Int)) (String.toList "q"))
            (min 1 s.chunks.length),
          p.2 < s.chunks.length)
      ∧ ∃ rs, retrieve (fun _ => [0])
          [⟨⟨[[0], [3]]⟩, [String.toList "aa", String.toList "bb"], String.toList "s"⟩]
          (String.toList "q") 1 = some rs :=
  c10_ids_in_range (fun _ => [0])
    [⟨⟨[[0], [3]]⟩, [String.toList "aa", String.toList "bb"], String.toList "s"⟩]
    (String.toList "q") 1 (by decide)

/-! ### Claims about collection building (C5) -/

/-- Scanning part of the listing: if every scanned `.index` entry with an
existing companion chunks file has parseable index data, the scan succeeds
and produces exactly the pair-complete sources. -/
theorem loadSourcesAux_some (dir : List DirEntry) :
    ∀ (scan : List DirEntry),
      (∀ e ∈ scan, endsWithL INDEX_SUFFIX e.name = true →
        (findFile dir (fnameBase e.name ++ CHUNKS_SUFFIX)).isSome →
        (readIndexData e.data).isSome) →
      ∃ srcs, loadSourcesAux dir scan = some srcs
        ∧ ∀ s ∈ srcs, ∃ e ∈ scan, endsWithL INDEX_SUFFIX e.name = true
            ∧ s.sname = fnameBase e.name
            ∧ (findFile dir (fnameBase e.name ++ CHUNKS_SUFFIX)).isSome := by
  intro scan
  induction scan with
  | nil =>
    intro _
    exact ⟨[], rfl, by simp⟩
  | cons e rest ih =>
    intro h
    rcases ih (fun e' he' => h e' (List.mem_cons_of_mem _ he')) with ⟨srcs', hs', hmem'⟩
    by_cases hend : endsWithL INDEX_SUFFIX e.name = true
    · cases hfind : findFile dir (fnameBase e.name ++ CHUNKS_SUFFIX) with
      | none =>
        refine ⟨srcs', ?_, ?_⟩
        · rw [loadSourcesAux, if_pos hend, hfind]
          exact hs'
        · intro s hs
          rcases hmem' s hs with ⟨e', he', hh⟩
          exact ⟨e', by simp [he'], hh⟩
      | some fd =>
        have hread : (readIndexData e.data).isSome :=
          h e (by simp) hend (by rw [hfind]; rfl)
        rcases Option.isSome_iff_exists.mp hread with ⟨ix, hix⟩
        refine ⟨⟨ix, parseChunks (readTextData fd), fnameBase e.name⟩ :: srcs', ?_, ?_⟩
        · rw [loadSourcesAux, if_pos hend, hfind, hix, hs']
        · intro s hs
          rcases List.mem_cons.mp hs with h1 | h1
          · subst h1
            exact ⟨e, by simp, hend, rfl, by rw [hfind]; rfl⟩
          · rcases hmem' s h1 with ⟨e', he', hh⟩
            exact ⟨e', by simp [he'], hh⟩
    · refine ⟨srcs', ?_, ?_⟩
      · rw [loadSourcesAux, if_neg hend]
        exact hs'
      · intro s hs
        rcases hmem' s hs with ⟨e', he', hh⟩
        exact ⟨e', by simp [he'], hh⟩

/-- C5, counterexample: a directory holding a malformed index file together
with its existing chunks file makes the constructor raise
(`faiss.read_index` is not guarded): the load failure is surfaced to the
caller, not recovered by excluding the source. -/
theorem c5_counterexample :
    ¬ ∃ srcs, loadSources
        [⟨String.toList "a.index", .idx none⟩,
         ⟨String.toList "a_chunks.txt", .txt (String.toList "x")⟩] = some srcs := by
  rintro ⟨srcs, h⟩
  have h0 : loadSources
      [⟨String.toList "a.index", FileData.idx none⟩,
       ⟨String.toList "a_chunks.txt", FileData.txt (String.toList "x")⟩] = none := by
    rfl
  rw [h0] at h
  cases h

/-- C5 (amended): a source whose companion chunks file is missing is
excluded from the collection at build time, never contributes results to
any retrieval, and this exclusion is not surfaced as an error — provided
every `.index` file that does have a companion chunks file is parseable; a
malformed index file, by contrast, makes the collection load itself fail
(see the counterexample). -/
theorem c5_load_exclusion (dir : List DirEntry)
    (hok : ∀ e ∈ dir, endsWithL INDEX_SUFFIX e.name = true →
      (findFile dir (fnameBase e.name ++ CHUNKS_SUFFIX)).isSome →
      (readIndexData e.data).isSome) :
    ∃ srcs, loadSources dir = some srcs
      ∧ (∀ s ∈ srcs, ∃ e ∈ dir, endsWithL INDEX_SUFFIX e.name = true
          ∧ s.sname = fnameBase e.name
          ∧ (findFile dir (fnameBase e.name ++ CHUNKS_SUFFIX)).isSome)
      ∧ ∀ (emb : List Char → List Int) (query : List Char) (top_k : Nat)
          (rs : List RResult), retrieve emb srcs query top_k = some rs →
          ∀ r ∈ rs, ∃ s ∈ srcs, r.source = s.sname := by
  rcases loadSourcesAux_some dir dir hok with ⟨srcs, h1, h2⟩
  exact ⟨srcs, h1, h2,
    fun emb query top_k rs h => retrieve_source_mem emb srcs query top_k rs h⟩

/-- Witness for `c5_load_exclusion` on `c5WitnessDir`. -/
theorem c5_load_exclusion_witness :
    ∃ srcs, loadSources c5WitnessDir = some srcs
      ∧ (∀ s ∈ srcs, ∃ e ∈ c5WitnessDir, endsWithL INDEX_SUFFIX e.name = true
          ∧ s.sname = fnameBase e.name
          ∧ (findFile c5WitnessDir (fnameBase e.name ++ CHUNKS_SUFFIX)).isSome)
      ∧ ∀ (emb : List Char → List Int) (query : List Char) (top_k : Nat)
          (rs : List RResult), retrieve emb srcs query top_k = some rs →
          ∀ r ∈ rs, ∃ s ∈ srcs, r.source = s.sname :=
  c5_load_exclusion c5WitnessDir (by decide)

end DietKB
